import Mathlib

/-!
# Verification of the `TheNextWeek` path tracer core

A shallow embedding of the renderer in `src/TheNextWeek/main.cc` and of the
headers it includes.  Real-number quantities are modelled by exact rationals
(`ℚ`); the C++ `infinity` double used as a `t`-interval bound is modelled by
the extended-rational type `erat` below.  The polymorphic
`hittable`/`material` interfaces are modelled as structures of functions;
code that lives only in headers absent from the source tree
(`bvh.h`, `hittable.h`, `hittable_list.h`, `aabb.h`, `constant_medium.h`,
`aarect.h`, `color.h`) is modelled from the specification, as marked in the
doc comments.
-/

set_option linter.unusedVariables false

/-- The 3-component vector type `vec3` of the renderer (also used as `color`
and `point3`), with exact rational components. -/
structure vec3 where
  x : ℚ
  y : ℚ
  z : ℚ
deriving DecidableEq, Repr

/-- `color` is an alias for `vec3`, as in the source. -/
abbrev color := vec3

/-- `point3` is an alias for `vec3`, as in the source. -/
abbrev point3 := vec3

/-- Componentwise vector addition (`vec3::operator+`). -/
instance : Add vec3 := ⟨fun a b => ⟨a.x + b.x, a.y + b.y, a.z + b.z⟩⟩

/-- Componentwise vector (Hadamard) product (`vec3::operator*`), used to
apply an attenuation color per channel. -/
instance : Mul vec3 := ⟨fun a b => ⟨a.x * b.x, a.y * b.y, a.z * b.z⟩⟩

/-- Vector negation (`vec3::operator-`). -/
instance : Neg vec3 := ⟨fun a => ⟨-a.x, -a.y, -a.z⟩⟩

/-- Scalar-vector product `t * v`. -/
def smul3 (t : ℚ) (v : vec3) : vec3 := ⟨t * v.x, t * v.y, t * v.z⟩

/-- Dot product of two vectors (`dot` in `vec3.h`). -/
def dot (a b : vec3) : ℚ := a.x * b.x + a.y * b.y + a.z * b.z

theorem vec3_add_def (a b : vec3) : a + b = ⟨a.x + b.x, a.y + b.y, a.z + b.z⟩ := rfl

theorem vec3_mul_def (a b : vec3) : a * b = ⟨a.x * b.x, a.y * b.y, a.z * b.z⟩ := rfl

/-- Multiplying an attenuation by the black color gives black. -/
theorem vec3_mul_zero (a : vec3) : a * (⟨0, 0, 0⟩ : vec3) = ⟨0, 0, 0⟩ := by
  show (⟨_, _, _⟩ : vec3) = _
  simp

/-- Adding black on the right is the identity. -/
theorem vec3_add_zero (a : vec3) : a + (⟨0, 0, 0⟩ : vec3) = a := by
  show (⟨_, _, _⟩ : vec3) = _
  simp

/-- A ray: origin, direction and time (`ray.h`).  Immutable. -/
structure ray where
  orig : point3
  dir : vec3
  tm : ℚ
deriving DecidableEq, Repr

/-- `ray::at(t) = orig + t*dir`. -/
def ray_at (r : ray) (t : ℚ) : point3 := r.orig + smul3 t r.dir

/-- Extended rationals: the value type of the `t_min`/`t_max` interval bounds
of `hittable::hit`.  `ninf`/`inf` model the `-infinity`/`infinity` doubles
used by the integrator (`ray_color` passes `infinity` as `t_max`) and by the
constant medium (which probes its boundary over `(-infinity, infinity)`). -/
inductive erat where
  | ninf : erat
  | fin (q : ℚ) : erat
  | inf : erat
deriving DecidableEq, Repr

namespace erat

/-- Order on extended rationals. -/
def ele : erat → erat → Prop
  | ninf, _ => True
  | fin _, ninf => False
  | fin p, fin q => p ≤ q
  | fin _, inf => True
  | inf, inf => True
  | inf, _ => False

instance : LE erat := ⟨ele⟩

instance : LT erat := ⟨fun a b => a ≤ b ∧ ¬b ≤ a⟩

theorem le_def (a b : erat) : (a ≤ b) = ele a b := rfl

instance decLe : ∀ a b : erat, Decidable (a ≤ b)
  | ninf, b => .isTrue trivial
  | fin _, ninf => .isFalse id
  | fin p, fin q => inferInstanceAs (Decidable (p ≤ q))
  | fin _, inf => .isTrue trivial
  | inf, inf => .isTrue trivial
  | inf, ninf => .isFalse id
  | inf, fin _ => .isFalse id

instance : LinearOrder erat where
  le_refl a := by cases a <;> simp [le_def, ele]
  le_trans a b c hab hbc := by
    cases a <;> cases b <;> cases c <;>
      simp_all [le_def, ele] <;> exact le_trans hab hbc
  le_antisymm a b hab hba := by
    cases a <;> cases b <;> simp_all [le_def, ele]
    exact le_antisymm hab hba
  le_total a b := by
    cases a <;> cases b <;> simp [le_def, ele]
    exact le_total _ _
  lt_iff_le_not_le _ _ := Iff.rfl
  decidableLE := decLe

theorem fin_le_fin {p q : ℚ} : (fin p ≤ fin q) ↔ p ≤ q := Iff.rfl

theorem fin_lt_fin {p q : ℚ} : (fin p < fin q) ↔ p < q := by
  constructor
  · rintro ⟨h1, h2⟩
    exact lt_of_le_not_le h1 h2
  · intro h
    exact ⟨fin_le_fin.mpr h.le, fun hc => absurd (fin_le_fin.mp hc) (not_le_of_lt h)⟩

theorem le_inf (a : erat) : a ≤ inf := by cases a <;> simp [le_def, ele]

theorem ninf_le (a : erat) : ninf ≤ a := trivial

end erat

/-- Axis-aligned bounding box: a pair of min/max corner points.
Modelled from the spec: `aabb.h` is not in the source tree; the spec defines
the AABB as a min/max corner pair with a componentwise `min ≤ max`
invariant, a union operation, and a slab-test intersection. -/
structure aabb where
  lo : point3
  hi : point3
deriving DecidableEq, Repr

/-- The spec's AABB invariant: `min ≤ max` componentwise. -/
def box_valid (b : aabb) : Prop :=
  b.lo.x ≤ b.hi.x ∧ b.lo.y ≤ b.hi.y ∧ b.lo.z ≤ b.hi.z

instance (b : aabb) : Decidable (box_valid b) := by
  unfold box_valid; infer_instance

/-- `b1` is contained in `b2`, componentwise. -/
def aabb_sub (b1 b2 : aabb) : Prop :=
  b2.lo.x ≤ b1.lo.x ∧ b2.lo.y ≤ b1.lo.y ∧ b2.lo.z ≤ b1.lo.z ∧
  b1.hi.x ≤ b2.hi.x ∧ b1.hi.y ≤ b2.hi.y ∧ b1.hi.z ≤ b2.hi.z

/-- Union of two boxes (`surrounding_box` of `aabb.h`).  Modelled from the
spec: componentwise min of mins and max of maxes. -/
def surrounding_box (a b : aabb) : aabb :=
  ⟨⟨min a.lo.x b.lo.x, min a.lo.y b.lo.y, min a.lo.z b.lo.z⟩,
   ⟨max a.hi.x b.hi.x, max a.hi.y b.hi.y, max a.hi.z b.hi.z⟩⟩

theorem aabb_sub_refl (b : aabb) : aabb_sub b b :=
  ⟨le_refl _, le_refl _, le_refl _, le_refl _, le_refl _, le_refl _⟩

theorem aabb_sub_trans {a b c : aabb} (h1 : aabb_sub a b) (h2 : aabb_sub b c) :
    aabb_sub a c := by
  obtain ⟨p1, p2, p3, p4, p5, p6⟩ := h1
  obtain ⟨q1, q2, q3, q4, q5, q6⟩ := h2
  exact ⟨le_trans q1 p1, le_trans q2 p2, le_trans q3 p3,
    le_trans p4 q4, le_trans p5 q5, le_trans p6 q6⟩

theorem sub_surrounding_left (a b : aabb) : aabb_sub a (surrounding_box a b) :=
  ⟨min_le_left _ _, min_le_left _ _, min_le_left _ _,
   le_max_left _ _, le_max_left _ _, le_max_left _ _⟩

theorem sub_surrounding_right (a b : aabb) : aabb_sub b (surrounding_box a b) :=
  ⟨min_le_right _ _, min_le_right _ _, min_le_right _ _,
   le_max_right _ _, le_max_right _ _, le_max_right _ _⟩

theorem surrounding_box_valid {a b : aabb} (ha : box_valid a) (hb : box_valid b) :
    box_valid (surrounding_box a b) :=
  ⟨le_trans (min_le_left _ _) (le_trans ha.1 (le_max_left _ _)),
   le_trans (min_le_left _ _) (le_trans ha.2.1 (le_max_left _ _)),
   le_trans (min_le_left _ _) (le_trans ha.2.2 (le_max_left _ _))⟩

/-- One axis of the slab test: tighten the running `(t_min, t_max)` interval
by the entry/exit parameters of the ray against the `[lo, hi]` slab.
Modelled from the spec: a zero direction component is special-cased as
"always within range" (the spec's required guard for the division), instead
of the C++ division producing `±infinity`. -/
def slab_update (lo hi orig d : ℚ) (acc : erat × erat) : erat × erat :=
  if d = 0 then acc
  else
    let t0 := (lo - orig) / d
    let t1 := (hi - orig) / d
    (max (erat.fin (min t0 t1)) acc.1, min (erat.fin (max t0 t1)) acc.2)

/-- The AABB slab test over a parametric interval (`aabb::hit`).  Modelled
from the spec: tighten the interval axis by axis and report a hit when the
final interval is non-degenerate (the C++ early exit per axis is equivalent,
since the bounds are only ever tightened). -/
def aabb_hit (b : aabb) (r : ray) (t_min t_max : erat) : Bool :=
  let s1 := slab_update b.lo.x b.hi.x r.orig.x r.dir.x (t_min, t_max)
  let s2 := slab_update b.lo.y b.hi.y r.orig.y r.dir.y s1
  let s3 := slab_update b.lo.z b.hi.z r.orig.z r.dir.z s2
  decide (s3.1 < s3.2)

/-- One slab-test axis is monotone: a smaller (valid) slab tightens the
running interval at least as much as an enclosing slab does. -/
theorem slab_update_mono (lo_s hi_s lo_b hi_b orig d : ℚ)
    (hv : lo_s ≤ hi_s) (h1 : lo_b ≤ lo_s) (h2 : hi_s ≤ hi_b)
    (acc_s acc_b : erat × erat)
    (ha1 : acc_b.1 ≤ acc_s.1) (ha2 : acc_s.2 ≤ acc_b.2) :
    (slab_update lo_b hi_b orig d acc_b).1 ≤ (slab_update lo_s hi_s orig d acc_s).1 ∧
    (slab_update lo_s hi_s orig d acc_s).2 ≤ (slab_update lo_b hi_b orig d acc_b).2 := by
  unfold slab_update
  by_cases hd : d = 0
  · simp [hd]; exact ⟨ha1, ha2⟩
  · simp only [hd, if_false]
    have hkey : min ((lo_b - orig) / d) ((hi_b - orig) / d) ≤
        min ((lo_s - orig) / d) ((hi_s - orig) / d) ∧
        max ((lo_s - orig) / d) ((hi_s - orig) / d) ≤
        max ((lo_b - orig) / d) ((hi_b - orig) / d) := by
      rcases lt_or_gt_of_ne hd with hneg | hpos
      · have t0m : (lo_s - orig) / d ≤ (lo_b - orig) / d :=
          (div_le_div_right_of_neg hneg).mpr (by linarith)
        have t1m : (hi_b - orig) / d ≤ (hi_s - orig) / d :=
          (div_le_div_right_of_neg hneg).mpr (by linarith)
        have hss : (hi_s - orig) / d ≤ (lo_s - orig) / d :=
          (div_le_div_right_of_neg hneg).mpr (by linarith)
        constructor
        · rw [min_eq_right hss]
          exact le_trans (min_le_right _ _) t1m
        · rw [max_eq_left hss]
          exact le_trans t0m (le_max_left _ _)
      · have t0m : (lo_b - orig) / d ≤ (lo_s - orig) / d :=
          (div_le_div_iff_of_pos_right hpos).mpr (by linarith)
        have t1m : (hi_s - orig) / d ≤ (hi_b - orig) / d :=
          (div_le_div_iff_of_pos_right hpos).mpr (by linarith)
        have hss : (lo_s - orig) / d ≤ (hi_s - orig) / d :=
          (div_le_div_iff_of_pos_right hpos).mpr (by linarith)
        constructor
        · rw [min_eq_left hss]
          exact le_trans (min_le_left _ _) t0m
        · rw [max_eq_right hss]
          exact le_trans t1m (le_max_right _ _)
    exact ⟨max_le_max (erat.fin_le_fin.mpr hkey.1) ha1,
           min_le_min (erat.fin_le_fin.mpr hkey.2) ha2⟩

/-- Slab-test monotonicity: a ray that hits a valid box also hits any
enclosing box, over the same parameter interval. -/
theorem aabb_hit_mono {b1 b2 : aabb} (hv : box_valid b1) (hs : aabb_sub b1 b2)
    (r : ray) (t_min t_max : erat) (h : aabb_hit b1 r t_min t_max = true) :
    aabb_hit b2 r t_min t_max = true := by
  obtain ⟨v1, v2, v3⟩ := hv
  obtain ⟨s1, s2, s3, s4, s5, s6⟩ := hs
  unfold aabb_hit at h ⊢
  have m1 := slab_update_mono b1.lo.x b1.hi.x b2.lo.x b2.hi.x r.orig.x r.dir.x
    v1 s1 s4 (t_min, t_max) (t_min, t_max) (le_refl _) (le_refl _)
  have m2 := slab_update_mono b1.lo.y b1.hi.y b2.lo.y b2.hi.y r.orig.y r.dir.y
    v2 s2 s5 _ _ m1.1 m1.2
  have m3 := slab_update_mono b1.lo.z b1.hi.z b2.lo.z b2.hi.z r.orig.z r.dir.z
    v3 s3 s6 _ _ m2.1 m2.2
  rw [decide_eq_true_iff] at h ⊢
  exact lt_of_le_of_lt m3.1 (lt_of_lt_of_le h m3.2)

/-- The geometric part of a `hit_record` (`hittable.h`): hit point, stored
normal, ray parameter `t`, surface coordinates `(u, v)` and the front-face
flag.  The material reference is kept in `hit_record` below. -/
structure hit_geom where
  p : point3
  normal : vec3
  t : ℚ
  u : ℚ
  v : ℚ
  front_face : Bool

/-- The material contract (`material.h`): `emitted(u, v, p)` returns the
emission color, and `scatter(r_in, rec)` optionally returns an attenuation
color together with the scattered ray (`none` models a declined scatter,
i.e. the C++ `scatter` returning `false`).  A material variant with its
random draws fixed (a fixed random seed) is a deterministic function, so a
material is modelled as a structure of functions. -/
structure material where
  emitted : ℚ → ℚ → point3 → color
  scatter : ray → hit_geom → Option (color × ray)

/-- A full hit record: the geometric fields plus the material at the hit
point (`mat_ptr`). -/
structure hit_record extends hit_geom where
  mat : material

/-- The hittable contract (`hittable.h`): `hit(r, t_min, t_max)` returns a
hit record for the nearest intersection in the parameter interval, or
`none`, and `box` is the object's bounding box over the scene's fixed time
interval (`bounding_box(time0, time1)`, computed once). -/
structure hittable where
  hit : ray → erat → erat → Option hit_record
  box : aabb

/-- `hit_record::set_face_normal` — modelled from the spec: the front-face
flag is `dot(ray.direction, outward_normal) < 0`, and the stored normal is
the outward normal when front-facing, its negation otherwise.  Returns the
`(front_face, normal)` pair. -/
def set_face_normal (r : ray) (outward_normal : vec3) : Bool × vec3 :=
  if dot r.dir outward_normal < 0 then (true, outward_normal)
  else (false, -outward_normal)

/-- An axis-aligned rectangle in a constant-`z` plane (`xy_rect` of
`aarect.h`) — modelled from the spec: ranges `[x0, x1] × [y0, y1]` on the
free axes, fixed coordinate `k` on the bound axis, one material. -/
structure xy_rect where
  x0 : ℚ
  x1 : ℚ
  y0 : ℚ
  y1 : ℚ
  k : ℚ
  mat : material

/-- `xy_rect::hit` — modelled from the spec: solve for the parameter `t`
where the ray crosses the plane `z = k`; reject if `t` is outside
`[t_min, t_max]` or the crossing point's free-axis coordinates fall outside
the ranges; otherwise build the record with normalized `(u, v)` and the
outward normal `(0, 0, 1)` put through the front-face bookkeeping.  A ray
parallel to the plane (`dir.z = 0`) never crosses it and is rejected. -/
def xy_rect_hit (rect : xy_rect) (r : ray) (t_min t_max : erat) :
    Option hit_record :=
  if r.dir.z = 0 then none
  else
    let t := (rect.k - r.orig.z) / r.dir.z
    if erat.fin t < t_min ∨ t_max < erat.fin t then none
    else
      let hx := r.orig.x + t * r.dir.x
      let hy := r.orig.y + t * r.dir.y
      if hx < rect.x0 ∨ hx > rect.x1 ∨ hy < rect.y0 ∨ hy > rect.y1 then none
      else
        let fn := set_face_normal r ⟨0, 0, 1⟩
        some { p := ray_at r t, normal := fn.2, t := t,
               u := (hx - rect.x0) / (rect.x1 - rect.x0),
               v := (hy - rect.y0) / (rect.y1 - rect.y0),
               front_face := fn.1, mat := rect.mat }

/-- `constant_medium::hit` — modelled from the spec: find the ray's entry
and exit parameters against the boundary (nearest hit over
`(-infinity, infinity)`, then the nearest hit after the entry), clamp the
resulting interval to `[t_min, t_max]` (and entry to `0`), reject a
degenerate interval, and report a hit only when the sampled free-flight
distance lies within the travel distance inside the boundary.  The spec
fixes the sampled distance as `-ln(U) / (density * |direction|)`; the draw
`-ln(U)` and the external numeric primitive `|direction|` enter here as the
explicit arguments `neg_log_u` and `dir_len` (entropy and the vector-length
primitive are external inputs).  The reported record carries an arbitrary
normal — the spec fixes `(1, 0, 0)` as irrelevant for volumetric
scattering — and an arbitrary `true` front-face flag. -/
def constant_medium_hit (boundary : hittable) (density : ℚ)
    (neg_log_u : ℚ) (dir_len : ℚ) (phase_function : material)
    (r : ray) (t_min t_max : erat) : Option hit_record :=
  match boundary.hit r erat.ninf erat.inf with
  | none => none
  | some rec1 =>
    match boundary.hit r (erat.fin (rec1.t + 1 / 10000)) erat.inf with
    | none => none
    | some rec2 =>
      let t1a := max (erat.fin rec1.t) t_min
      let t2a := min (erat.fin rec2.t) t_max
      if h12 : t2a ≤ t1a then none
      else
        match t1a, t2a with
        | erat.fin q1, erat.fin q2 =>
          let q1c := max q1 0
          let distance_inside_boundary := (q2 - q1c) * dir_len
          let hit_distance := neg_log_u / (density * dir_len)
          if hit_distance > distance_inside_boundary then none
          else
            let t := q1c + hit_distance / dir_len
            some { p := ray_at r t, normal := ⟨1, 0, 0⟩, t := t,
                   u := 0, v := 0, front_face := true,
                   mat := phase_function }
        | _, _ => none

/-- The constant medium as a hittable (`constant_medium.h`), with its
random draw and the boundary's direction-length made explicit.  Its
bounding box is the boundary's. -/
def constant_medium (boundary : hittable) (density : ℚ)
    (neg_log_u : ℚ) (dir_len : ℚ) (phase_function : material) : hittable :=
  { hit := constant_medium_hit boundary density neg_log_u dir_len phase_function,
    box := boundary.box }

/-- `hittable_list::hit` — modelled from the spec and `hittable_list.h`:
scan the objects in order, keeping the closest hit found so far by shrinking
the upper interval bound to its `t`; the final record is the nearest hit
over all objects. -/
def hittable_list_hit : List hittable → ray → erat → erat → Option hit_record
  | [], _, _, _ => none
  | o :: rest, r, t_min, t_max =>
    match o.hit r t_min t_max with
    | none => hittable_list_hit rest r t_min t_max
    | some hrec =>
      match hittable_list_hit rest r t_min (erat.fin hrec.t) with
      | none => some hrec
      | some hrec2 => some hrec2

/-- A BVH tree (`bvh_node` of `bvh.h`) — modelled from the spec: an internal
node holds a precomputed bounding box and two children; a child is either
another node or a plain geometry (the C++ children are `hittable` pointers,
which may or may not be `bvh_node`s). -/
inductive bvh_tree where
  | leaf (o : hittable) : bvh_tree
  | node (box : aabb) (l r : bvh_tree) : bvh_tree

/-- The bounding box of a BVH subtree (`bounding_box` of the node, or the
wrapped geometry's box at a leaf). -/
def tbox : bvh_tree → aabb
  | .leaf o => o.box
  | .node bx _ _ => bx

/-- The geometries stored at the leaves of a BVH subtree, left to right. -/
def leaves : bvh_tree → List hittable
  | .leaf o => [o]
  | .node _ l r => leaves l ++ leaves r

/-- `bvh_node::hit` — modelled from the spec: test the node's own box first
and prune on a miss; otherwise probe the left child, and probe the right
child with the upper bound shrunk to the left hit's `t` when the left child
hit (so the right probe only accepts closer hits); return the right hit if
any, else the left one. -/
def bvh_hit : bvh_tree → ray → erat → erat → Option hit_record
  | .leaf o, r, t_min, t_max => o.hit r t_min t_max
  | .node bx l rt, r, t_min, t_max =>
    if aabb_hit bx r t_min t_max then
      match bvh_hit l r t_min t_max with
      | some lrec =>
        match bvh_hit rt r t_min (erat.fin lrec.t) with
        | some rrec => some rrec
        | none => some lrec
      | none => bvh_hit rt r t_min t_max
    else none

/-- Select one coordinate of a vector by axis index (`vec3::e[axis]`). -/
def axis_get (v : vec3) : Fin 3 → ℚ
  | 0 => v.x
  | 1 => v.y
  | 2 => v.z

/-- `box_compare` of `bvh.h` — modelled from the spec: order two geometries
by the chosen axis's bounding-box minimum. -/
def box_compare (axis : Fin 3) (a b : hittable) : Prop :=
  axis_get a.box.lo axis < axis_get b.box.lo axis

instance (axis : Fin 3) : DecidableRel (box_compare axis) := fun a b => by
  unfold box_compare; infer_instance

/-- The BVH build (`bvh_node` constructor) — modelled from the spec
(recursive median split): one element becomes a leaf duplicated as both
children; two elements are ordered by the comparator, one per child;
otherwise the span is sorted by the chosen axis's bounding-box minimum
(a stable sort, so ties preserve input order), split at the midpoint index,
and built recursively.  Every node's box is the union of its children's
boxes, computed once.  The axis choice per node is randomized in the code;
with a fixed seed it is a deterministic stream, modelled by `axf` indexed
by the node's position (`2n+1`/`2n+2` for the children of `n`).  The build
of an empty span is undefined in the code and returns `none` here. -/
def bvh_build (axf : ℕ → Fin 3) : ℕ → List hittable → Option bvh_tree
  | _, [] => none
  | _, [a] => some (.node (surrounding_box a.box a.box) (.leaf a) (.leaf a))
  | n, [a, b] =>
    if box_compare (axf n) a b then
      some (.node (surrounding_box a.box b.box) (.leaf a) (.leaf b))
    else
      some (.node (surrounding_box b.box a.box) (.leaf b) (.leaf a))
  | n, a :: b :: c :: rest =>
    let sorted := List.insertionSort (box_compare (axf n)) (a :: b :: c :: rest)
    let mid := (a :: b :: c :: rest).length / 2
    match bvh_build axf (2 * n + 1) (sorted.take mid),
          bvh_build axf (2 * n + 2) (sorted.drop mid) with
    | some l, some rr => some (.node (surrounding_box (tbox l) (tbox rr)) l rr)
    | _, _ => none
termination_by _ objs => objs.length
decreasing_by
  all_goals
    have hlen : (List.insertionSort (box_compare (axf n)) (a :: b :: c :: rest)).length =
        (a :: b :: c :: rest).length := List.length_insertionSort _ _
    simp only [List.length_take, List.length_drop, hlen, List.length_cons]
    omega

/-- The `t` parameter of a hit record. -/
def hit_t (hrec : hit_record) : ℚ := hrec.t

/-- Minimum of two optional `t` values, `none` acting as "no hit". -/
def opt_min : Option ℚ → Option ℚ → Option ℚ
  | none, b => b
  | some a, none => some a
  | some a, some b => some (min a b)

theorem opt_min_none_right (a : Option ℚ) : opt_min a none = a := by
  cases a <;> rfl

theorem opt_min_comm (a b : Option ℚ) : opt_min a b = opt_min b a := by
  cases a <;> cases b <;> simp [opt_min, min_comm]

theorem opt_min_assoc (a b c : Option ℚ) :
    opt_min (opt_min a b) c = opt_min a (opt_min b c) := by
  cases a <;> cases b <;> cases c <;> simp [opt_min, min_assoc]

theorem opt_min_idem (a : Option ℚ) : opt_min a a = a := by
  cases a <;> simp [opt_min]

/-- The nearest-hit `t` over a set of geometries, obtained by probing each
geometry independently over the same interval: the reference value both the
linear scan and the BVH traversal must produce. -/
def min_hit_t (objs : List hittable) (r : ray) (t_min t_max : erat) : Option ℚ :=
  objs.foldr (fun o acc => opt_min (Option.map hit_t (o.hit r t_min t_max)) acc) none

theorem min_hit_t_nil (r : ray) (t_min t_max : erat) :
    min_hit_t [] r t_min t_max = none := rfl

theorem min_hit_t_cons (o : hittable) (objs : List hittable) (r : ray)
    (t_min t_max : erat) :
    min_hit_t (o :: objs) r t_min t_max =
      opt_min (Option.map hit_t (o.hit r t_min t_max)) (min_hit_t objs r t_min t_max) := rfl

theorem min_hit_t_append (l1 l2 : List hittable) (r : ray) (t_min t_max : erat) :
    min_hit_t (l1 ++ l2) r t_min t_max =
      opt_min (min_hit_t l1 r t_min t_max) (min_hit_t l2 r t_min t_max) := by
  induction l1 with
  | nil => simp [min_hit_t_nil, List.nil_append, opt_min]
  | cons o rest ih =>
    rw [List.cons_append, min_hit_t_cons, ih, min_hit_t_cons, opt_min_assoc]

/-- `min_hit_t` is invariant under permutation of the geometries. -/
theorem min_hit_t_perm {l1 l2 : List hittable} (hp : l1.Perm l2) (r : ray)
    (t_min t_max : erat) :
    min_hit_t l1 r t_min t_max = min_hit_t l2 r t_min t_max := by
  induction hp with
  | nil => rfl
  | cons o p ih => rw [min_hit_t_cons, min_hit_t_cons, ih]
  | swap a b l =>
    rw [min_hit_t_cons, min_hit_t_cons, min_hit_t_cons, min_hit_t_cons,
      ← opt_min_assoc, ← opt_min_assoc, opt_min_comm (Option.map hit_t (b.hit r t_min t_max))]
  | trans p1 p2 ih1 ih2 => rw [ih1, ih2]

theorem min_hit_t_all_none {objs : List hittable} {r : ray} {t_min t_max : erat}
    (h : ∀ o ∈ objs, o.hit r t_min t_max = none) :
    min_hit_t objs r t_min t_max = none := by
  induction objs with
  | nil => rfl
  | cons o rest ih =>
    rw [min_hit_t_cons, h o (List.mem_cons_self o rest),
      ih fun o' ho' => h o' (List.mem_cons_of_mem o ho')]
    rfl

/-- Restrict an optional nearest-hit `t` to the tightened upper bound `c`. -/
def clip (c : ℚ) : Option ℚ → Option ℚ
  | none => none
  | some t => if t ≤ c then some t else none

theorem clip_opt_min (c : ℚ) (a b : Option ℚ) :
    clip c (opt_min a b) = opt_min (clip c a) (clip c b) := by
  cases a with
  | none => rfl
  | some p =>
    cases b with
    | none =>
      show clip c (some p) = opt_min (clip c (some p)) none
      rw [opt_min_none_right]
    | some q =>
      simp only [opt_min, clip]
      rcases le_total p q with hpq | hqp
      · rw [min_eq_left hpq]
        by_cases hp : p ≤ c
        · by_cases hq : q ≤ c <;> simp [hp, hq, opt_min, min_eq_left hpq]
        · have hq : ¬q ≤ c := fun hq => hp (le_trans hpq hq)
          simp [hp, hq, opt_min]
      · rw [min_eq_right hqp]
        by_cases hq : q ≤ c
        · by_cases hp : p ≤ c <;> simp [hp, hq, opt_min, min_eq_right hqp]
        · have hp : ¬p ≤ c := fun hp => hq (le_trans hqp hp)
          simp [hp, hq, opt_min]

/-- `hit` only reports parameters inside the probe interval: the first
component of the hittable contract. -/
def hit_in_range (o : hittable) : Prop :=
  ∀ r t_min t_max hrec, o.hit r t_min t_max = some hrec →
    t_min ≤ erat.fin hrec.t ∧ erat.fin hrec.t ≤ t_max

/-- `hit` has nearest-hit semantics: tightening the upper bound to a finite
`c ≤ t_max` keeps the same record when its `t` is within the tightened
interval and reports no hit otherwise (every intersection of the object is
at or beyond the nearest one). -/
def hit_nearest (o : hittable) : Prop :=
  ∀ r t_min t_max (c : ℚ), erat.fin c ≤ t_max →
    o.hit r t_min (erat.fin c) =
      match o.hit r t_min t_max with
      | some hrec => if hrec.t ≤ c then some hrec else none
      | none => none

/-- `hit` misses whenever the slab test against the object's bounding box
misses: the correctness contract of `bounding_box`. -/
def hit_bounded (o : hittable) : Prop :=
  ∀ r t_min t_max, aabb_hit o.box r t_min t_max = false →
    o.hit r t_min t_max = none

/-- A well-formed geometry: a valid bounding box and a `hit` satisfying the
hittable contract the BVH relies on. -/
def wf_hittable (o : hittable) : Prop :=
  box_valid o.box ∧ hit_in_range o ∧ hit_nearest o ∧ hit_bounded o

/-- Tightening the probe interval's upper bound restricts the per-object
nearest-hit values pointwise. -/
theorem min_hit_t_shrink {objs : List hittable}
    (hwf : ∀ o ∈ objs, hit_nearest o) (r : ray) (t_min t_max : erat)
    (c : ℚ) (hc : erat.fin c ≤ t_max) :
    min_hit_t objs r t_min (erat.fin c) =
      clip c (min_hit_t objs r t_min t_max) := by
  induction objs with
  | nil => rfl
  | cons o rest ih =>
    rw [min_hit_t_cons, min_hit_t_cons, clip_opt_min]
    have hhead : Option.map hit_t (o.hit r t_min (erat.fin c)) =
        clip c (Option.map hit_t (o.hit r t_min t_max)) := by
      rw [hwf o (List.mem_cons_self o rest) r t_min t_max c hc]
      cases h : o.hit r t_min t_max with
      | none => rfl
      | some hrec =>
        by_cases ht : hrec.t ≤ c
        · simp [ht, clip, hit_t]
        · simp [ht, clip, hit_t]
    rw [hhead, ih fun o' h => hwf o' (List.mem_cons_of_mem o h)]

/-- The linear scan (`hittable_list::hit`) computes the nearest hit `t`
over its objects: its result's `t` is the minimum of the per-object
nearest-hit parameters over the full interval. -/
theorem hittable_list_hit_min (objs : List hittable)
    (hwf : ∀ o ∈ objs, wf_hittable o) (r : ray) :
    ∀ t_min t_max, Option.map hit_t (hittable_list_hit objs r t_min t_max) =
      min_hit_t objs r t_min t_max := by
  induction objs with
  | nil => intro t_min t_max; rfl
  | cons o rest ih =>
    intro t_min t_max
    have hwo := hwf o (List.mem_cons_self o rest)
    have hwr : ∀ o' ∈ rest, wf_hittable o' :=
      fun o' h => hwf o' (List.mem_cons_of_mem o h)
    rw [min_hit_t_cons]
    cases h : o.hit r t_min t_max with
    | none =>
      simp only [hittable_list_hit, h]
      rw [ih hwr t_min t_max]
      rfl
    | some hrec =>
      have hrt : erat.fin hrec.t ≤ t_max := (hwo.2.1 r t_min t_max hrec h).2
      have ihs := ih hwr t_min (erat.fin hrec.t)
      rw [min_hit_t_shrink (fun o' h' => (hwr o' h').2.2.1) r t_min t_max hrec.t hrt]
        at ihs
      cases h2 : hittable_list_hit rest r t_min (erat.fin hrec.t) with
      | none =>
        rw [h2] at ihs
        simp only [hittable_list_hit, h, h2]
        cases h3 : min_hit_t rest r t_min t_max with
        | none => rw [opt_min_none_right]
        | some s =>
          rw [h3] at ihs
          simp only [clip, Option.map_none'] at ihs
          by_cases hs : s ≤ hrec.t
          · rw [if_pos hs] at ihs
            exact absurd ihs.symm (by simp)
          · have hts : hrec.t ≤ s := le_of_not_le hs
            show Option.map hit_t (some hrec) = opt_min (Option.map hit_t (some hrec)) (some s)
            simp [opt_min, hit_t, min_eq_left hts]
      | some hrec2 =>
        rw [h2] at ihs
        simp only [hittable_list_hit, h, h2]
        cases h3 : min_hit_t rest r t_min t_max with
        | none =>
          rw [h3] at ihs
          simp only [clip] at ihs
          exact absurd ihs (by simp)
        | some s =>
          rw [h3] at ihs
          simp only [clip, Option.map_some'] at ihs
          by_cases hs : s ≤ hrec.t
          · rw [if_pos hs] at ihs
            have hst : hit_t hrec2 = s := by injection ihs with hh
            show Option.map hit_t (some hrec2) = opt_min (Option.map hit_t (some hrec)) (some s)
            simp only [Option.map_some', opt_min, hst]
            rw [min_eq_right (show s ≤ hit_t hrec from hs)]
          · rw [if_neg hs] at ihs
            exact absurd ihs (by simp)

/-- Structural invariant of a built BVH: every node's box contains its
children's boxes. -/
def tree_inv : bvh_tree → Prop
  | .leaf _ => True
  | .node bx l r =>
    aabb_sub (tbox l) bx ∧ aabb_sub (tbox r) bx ∧ tree_inv l ∧ tree_inv r

/-- Every leaf geometry's box is contained in its subtree's box. -/
theorem leaf_box_sub {t : bvh_tree} (hinv : tree_inv t) {o : hittable}
    (ho : o ∈ leaves t) : aabb_sub o.box (tbox t) := by
  induction t with
  | leaf o' =>
    simp only [leaves, List.mem_singleton] at ho
    rw [ho]
    exact aabb_sub_refl _
  | node bx l r ihl ihr =>
    obtain ⟨hl, hr, hil, hir⟩ := hinv
    simp only [leaves, List.mem_append] at ho
    rcases ho with ho | ho
    · exact aabb_sub_trans (ihl hil ho) hl
    · exact aabb_sub_trans (ihr hir ho) hr

/-- A BVH hit's `t` lies in the probe interval, provided every leaf
geometry respects the interval contract. -/
theorem bvh_hit_range {t : bvh_tree}
    (hw : ∀ o ∈ leaves t, hit_in_range o) (r : ray) :
    ∀ t_min t_max hrec, bvh_hit t r t_min t_max = some hrec →
      t_min ≤ erat.fin hrec.t ∧ erat.fin hrec.t ≤ t_max := by
  induction t with
  | leaf o =>
    intro t_min t_max hrec h
    exact hw o (List.mem_singleton_self o) r t_min t_max hrec h
  | node bx l rt ihl ihr =>
    intro t_min t_max hrec h
    have hwl : ∀ o ∈ leaves l, hit_in_range o := fun o ho =>
      hw o (by simp [leaves, List.mem_append]; exact Or.inl ho)
    have hwr : ∀ o ∈ leaves rt, hit_in_range o := fun o ho =>
      hw o (by simp [leaves, List.mem_append]; exact Or.inr ho)
    simp only [bvh_hit] at h
    split at h
    · split at h
      next lrec hl =>
        have hlr := ihl hwl t_min t_max lrec hl
        split at h
        next rrec hr =>
          injection h with hh
          rw [← hh]
          have hrr := ihr hwr t_min (erat.fin lrec.t) rrec hr
          exact ⟨hrr.1, le_trans hrr.2 hlr.2⟩
        next hr =>
          injection h with hh
          rw [← hh]
          exact hlr
      next hl => exact ihr hwr t_min t_max hrec h
    · exact absurd h (by simp)

/-- The BVH traversal computes the nearest hit `t` over its leaf
geometries: box pruning and interval shrinking never lose the nearest hit. -/
theorem bvh_hit_min (t : bvh_tree) (hw : ∀ o ∈ leaves t, wf_hittable o)
    (hinv : tree_inv t) (r : ray) :
    ∀ t_min t_max, Option.map hit_t (bvh_hit t r t_min t_max) =
      min_hit_t (leaves t) r t_min t_max := by
  induction t with
  | leaf o =>
    intro t_min t_max
    show Option.map hit_t (o.hit r t_min t_max) = min_hit_t [o] r t_min t_max
    rw [min_hit_t_cons, min_hit_t_nil, opt_min_none_right]
  | node bx l rt ihl ihr =>
    intro t_min t_max
    have hwl : ∀ o ∈ leaves l, wf_hittable o := fun o ho =>
      hw o (by simp only [leaves, List.mem_append]; exact Or.inl ho)
    have hwr : ∀ o ∈ leaves rt, wf_hittable o := fun o ho =>
      hw o (by simp only [leaves, List.mem_append]; exact Or.inr ho)
    obtain ⟨hsl, hsr, hil, hir⟩ := hinv
    by_cases hbox : aabb_hit bx r t_min t_max = true
    · have hunf : bvh_hit (.node bx l rt) r t_min t_max =
          match bvh_hit l r t_min t_max with
          | some lrec =>
            (match bvh_hit rt r t_min (erat.fin lrec.t) with
             | some rrec => some rrec
             | none => some lrec)
          | none => bvh_hit rt r t_min t_max := by
        simp only [bvh_hit, if_pos hbox]
      rw [hunf]
      show _ = min_hit_t (leaves l ++ leaves rt) r t_min t_max
      rw [min_hit_t_append]
      cases hl : bvh_hit l r t_min t_max with
      | none =>
        have ihl' := ihl hwl hil t_min t_max
        rw [hl] at ihl'
        rw [← ihl', ihr hwr hir t_min t_max]
        rfl
      | some lrec =>
        have hlt : erat.fin lrec.t ≤ t_max :=
          (bvh_hit_range (fun o ho => (hwl o ho).2.1) r t_min t_max lrec hl).2
        have ihl' := ihl hwl hil t_min t_max
        rw [hl] at ihl'
        have ihrs := ihr hwr hir t_min (erat.fin lrec.t)
        rw [min_hit_t_shrink (fun o ho => (hwr o ho).2.2.1) r t_min t_max lrec.t hlt]
          at ihrs
        rw [← ihl']
        show Option.map hit_t
            (match bvh_hit rt r t_min (erat.fin lrec.t) with
             | some rrec => some rrec
             | none => some lrec) = _
        cases hr : bvh_hit rt r t_min (erat.fin lrec.t) with
        | none =>
          rw [hr] at ihrs
          cases h3 : min_hit_t (leaves rt) r t_min t_max with
          | none => rw [opt_min_none_right]
          | some s =>
            rw [h3] at ihrs
            simp only [clip, Option.map_none'] at ihrs
            by_cases hs : s ≤ lrec.t
            · rw [if_pos hs] at ihrs
              exact absurd ihrs (by simp)
            · have hts : lrec.t ≤ s := le_of_not_le hs
              show Option.map hit_t (some lrec) =
                opt_min (Option.map hit_t (some lrec)) (some s)
              simp [opt_min, hit_t, min_eq_left hts]
        | some rrec =>
          rw [hr] at ihrs
          cases h3 : min_hit_t (leaves rt) r t_min t_max with
          | none =>
            rw [h3] at ihrs
            simp only [clip, Option.map_some'] at ihrs
            exact absurd ihrs (by simp)
          | some s =>
            rw [h3] at ihrs
            simp only [clip, Option.map_some'] at ihrs
            by_cases hs : s ≤ lrec.t
            · rw [if_pos hs] at ihrs
              injection ihrs with hh
              show Option.map hit_t (some rrec) =
                opt_min (Option.map hit_t (some lrec)) (some s)
              simp only [Option.map_some', opt_min, hh]
              rw [min_eq_right (show s ≤ hit_t lrec from hs)]
            · rw [if_neg hs] at ihrs
              exact absurd ihrs (by simp)
    · rw [Bool.not_eq_true] at hbox
      have hnone : bvh_hit (.node bx l rt) r t_min t_max = none := by
        simp [bvh_hit, hbox]
      rw [hnone, min_hit_t_all_none ?hnone]
      · rfl
      case hnone =>
        intro o ho
        have hsub : aabb_sub o.box bx :=
          leaf_box_sub
            (show tree_inv (bvh_tree.node bx l rt) from ⟨hsl, hsr, hil, hir⟩) ho
        have hof : aabb_hit o.box r t_min t_max = false := by
          by_cases h1 : aabb_hit o.box r t_min t_max = true
          · exact absurd (aabb_hit_mono (hw o ho).1 hsub r t_min t_max h1)
              (by simp [hbox])
          · rwa [Bool.not_eq_true] at h1
        exact (hw o ho).2.2.2 r t_min t_max hof

/-- A built BVH satisfies the box-enclosure invariant: every node box is
the union of its children's boxes, so it contains both. -/
theorem bvh_build_inv (axf : ℕ → Fin 3) :
    ∀ (n : ℕ) (objs : List hittable) (t : bvh_tree),
      bvh_build axf n objs = some t → tree_inv t := by
  intro n objs
  induction n, objs using bvh_build.induct axf with
  | case1 x =>
    intro t hb
    exact absurd hb (by simp [bvh_build])
  | case2 x a =>
    intro t hb
    simp only [bvh_build] at hb
    injection hb with hh
    rw [← hh]
    exact ⟨sub_surrounding_left _ _, sub_surrounding_right _ _, trivial, trivial⟩
  | case3 n a b hcmp =>
    intro t hb
    simp only [bvh_build, if_pos hcmp] at hb
    injection hb with hh
    rw [← hh]
    exact ⟨sub_surrounding_left _ _, sub_surrounding_right _ _, trivial, trivial⟩
  | case4 n a b hcmp =>
    intro t hb
    simp only [bvh_build, if_neg hcmp] at hb
    injection hb with hh
    rw [← hh]
    exact ⟨sub_surrounding_left _ _, sub_surrounding_right _ _, trivial, trivial⟩
  | case5 n a b c rest sorted mid l rr hr hl ih1 ih2 =>
    intro t hb
    simp only [bvh_build] at hb
    unfold sorted mid at hl hr
    rw [hl, hr] at hb
    injection hb with hh
    rw [← hh]
    exact ⟨sub_surrounding_left _ _, sub_surrounding_right _ _,
      ih1 l hl, ih2 rr hr⟩
  | case6 n a b c rest sorted mid hcontra ih1 ih2 =>
    intro t hb
    simp only [bvh_build] at hb
    exact absurd hb (by simp)

/-- Every leaf geometry of a built BVH comes from the input collection. -/
theorem bvh_build_leaves_mem (axf : ℕ → Fin 3) :
    ∀ (n : ℕ) (objs : List hittable) (t : bvh_tree),
      bvh_build axf n objs = some t → ∀ o ∈ leaves t, o ∈ objs := by
  intro n objs
  induction n, objs using bvh_build.induct axf with
  | case1 x =>
    intro t hb
    exact absurd hb (by simp [bvh_build])
  | case2 x a =>
    intro t hb
    simp only [bvh_build] at hb
    injection hb with hh
    rw [← hh]
    intro o ho
    simp only [leaves, List.mem_append, List.mem_singleton] at ho
    rcases ho with ho | ho <;> simp [ho]
  | case3 n a b hcmp =>
    intro t hb
    simp only [bvh_build, if_pos hcmp] at hb
    injection hb with hh
    rw [← hh]
    intro o ho
    simp only [leaves, List.mem_append, List.mem_singleton] at ho
    rcases ho with ho | ho <;> simp [ho]
  | case4 n a b hcmp =>
    intro t hb
    simp only [bvh_build, if_neg hcmp] at hb
    injection hb with hh
    rw [← hh]
    intro o ho
    simp only [leaves, List.mem_append, List.mem_singleton] at ho
    rcases ho with ho | ho <;> simp [ho]
  | case5 n a b c rest sorted mid l rr hr hl ih1 ih2 =>
    intro t hb
    simp only [bvh_build] at hb
    unfold sorted mid at hl hr
    rw [hl, hr] at hb
    injection hb with hh
    rw [← hh]
    intro o ho
    simp only [leaves, List.mem_append] at ho
    have hsorted : o ∈ List.insertionSort (box_compare (axf n)) (a :: b :: c :: rest) := by
      rcases ho with ho | ho
      · exact List.take_subset _ _ (ih1 l hl o ho)
      · exact List.drop_subset _ _ (ih2 rr hr o ho)
    exact (List.perm_insertionSort (box_compare (axf n)) (a :: b :: c :: rest)).subset
      hsorted
  | case6 n a b c rest sorted mid hcontra ih1 ih2 =>
    intro t hb
    simp only [bvh_build] at hb
    exact absurd hb (by simp)

/-- The nearest-hit reference value computed over a built BVH's leaves is
the one computed over the input collection: splitting, sorting and leaf
duplication do not change the pointwise minimum. -/
theorem bvh_build_min (axf : ℕ → Fin 3) (r : ray) (t_min t_max : erat) :
    ∀ (n : ℕ) (objs : List hittable) (t : bvh_tree),
      bvh_build axf n objs = some t →
        min_hit_t (leaves t) r t_min t_max = min_hit_t objs r t_min t_max := by
  intro n objs
  induction n, objs using bvh_build.induct axf with
  | case1 x =>
    intro t hb
    exact absurd hb (by simp [bvh_build])
  | case2 x a =>
    intro t hb
    simp only [bvh_build] at hb
    injection hb with hh
    rw [← hh]
    show min_hit_t [a, a] r t_min t_max = min_hit_t [a] r t_min t_max
    rw [min_hit_t_cons, min_hit_t_cons, min_hit_t_nil, opt_min_none_right,
      opt_min_idem]
  | case3 n a b hcmp =>
    intro t hb
    simp only [bvh_build, if_pos hcmp] at hb
    injection hb with hh
    rw [← hh]
    rfl
  | case4 n a b hcmp =>
    intro t hb
    simp only [bvh_build, if_neg hcmp] at hb
    injection hb with hh
    rw [← hh]
    show min_hit_t [b, a] r t_min t_max = min_hit_t [a, b] r t_min t_max
    exact min_hit_t_perm (List.Perm.swap a b []) r t_min t_max
  | case5 n a b c rest sorted mid l rr hr hl ih1 ih2 =>
    intro t hb
    simp only [bvh_build] at hb
    unfold sorted mid at hl hr
    rw [hl, hr] at hb
    injection hb with hh
    rw [← hh]
    show min_hit_t (leaves l ++ leaves rr) r t_min t_max = _
    rw [min_hit_t_append, ih1 l hl, ih2 rr hr, ← min_hit_t_append,
      List.take_append_drop]
    exact min_hit_t_perm
      (List.perm_insertionSort (box_compare (axf n)) (a :: b :: c :: rest))
      r t_min t_max
  | case6 n a b c rest sorted mid hcontra ih1 ih2 =>
    intro t hb
    simp only [bvh_build] at hb
    exact absurd hb (by simp)

/-- `ray_color` from `main.cc` (lines 32-51), the path-tracing integrator:
black once the bounce budget is exhausted; otherwise query the world over
`[0.001, infinity)`; on a miss return the background; on a hit return the
material's emission, plus — when the material scatters — the attenuated
recursive radiance of the scattered ray at `depth - 1`.  `depth` is the C++
`int`, modelled as `ℤ`. -/
def ray_color (r : ray) (background : color) (world : hittable) (depth : ℤ) :
    color :=
  if depth ≤ 0 then ⟨0, 0, 0⟩
  else
    match world.hit r (erat.fin (1 / 1000)) erat.inf with
    | none => background
    | some hrec =>
      let emitted := hrec.mat.emitted hrec.u hrec.v hrec.p
      match hrec.mat.scatter r hrec.tohit_geom with
      | none => emitted
      | some (attenuation, scattered) =>
        emitted + attenuation * ray_color scattered background world (depth - 1)
termination_by depth.toNat
decreasing_by omega

/-- A fuel-indexed variant of the integrator: `none` means the evaluation
did not complete within the given number of stack frames.  Used to state
that the recursion of `ray_color` terminates within `depth + 1` frames. -/
def ray_color_fuel : ℕ → ray → color → hittable → ℤ → Option color
  | 0, _, _, _, _ => none
  | fuel + 1, r, background, world, depth =>
    if depth ≤ 0 then some ⟨0, 0, 0⟩
    else
      match world.hit r (erat.fin (1 / 1000)) erat.inf with
      | none => some background
      | some hrec =>
        let emitted := hrec.mat.emitted hrec.u hrec.v hrec.p
        match hrec.mat.scatter r hrec.tohit_geom with
        | none => some emitted
        | some (attenuation, scattered) =>
          Option.map (fun c => emitted + attenuation * c)
            (ray_color_fuel fuel scattered background world (depth - 1))

/-- An explicit random stream: the source of the uniform draws the C++ code
takes from its global RNG, made an explicit value (a fixed seed determines
the whole stream). -/
def rng_stream : Type := ℕ → ℚ

/-- A material whose scatter consumes entropy explicitly and returns the
remaining stream, mirroring the C++ materials' draws from the global RNG. -/
structure rmaterial where
  emitted : ℚ → ℚ → point3 → color
  scatter : ray → hit_geom → rng_stream → Option (color × ray) × rng_stream

/-- Hit record for the entropy-explicit model. -/
structure rhit_record extends hit_geom where
  mat : rmaterial

/-- A hittable whose hit query may consume entropy (the constant medium
does), threading the stream explicitly. -/
structure rhittable where
  hit : ray → erat → erat → rng_stream → Option rhit_record × rng_stream

/-- `ray_color` with the ambient RNG state threaded explicitly: same
control flow as `ray_color`, with every potentially-random call passing the
stream along and returning the remainder. -/
def ray_color_rand (r : ray) (background : color) (world : rhittable)
    (depth : ℤ) (g : rng_stream) : color × rng_stream :=
  if depth ≤ 0 then (⟨0, 0, 0⟩, g)
  else
    match world.hit r (erat.fin (1 / 1000)) erat.inf g with
    | (none, g1) => (background, g1)
    | (some hrec, g1) =>
      let emitted := hrec.mat.emitted hrec.u hrec.v hrec.p
      match hrec.mat.scatter r hrec.tohit_geom g1 with
      | (none, g2) => (emitted, g2)
      | (some (attenuation, scattered), g2) =>
        let res := ray_color_rand scattered background world (depth - 1) g2
        (emitted + attenuation * res.1, res.2)
termination_by depth.toNat
decreasing_by omega

/-- `clamp` from `rtweekend.h` — modelled from the spec's
`clamp(..., 0, 1)`. -/
def clamp (x lo hi : ℚ) : ℚ :=
  if x < lo then lo else if x > hi then hi else x

/-- `convert` of `color.h` — modelled from the spec: an accumulated channel
value maps to the 8-bit value `clamp(sqrt(value / sample_count), 0, 1) ×
255`; the square root is the external numeric primitive `sqrtq`, and the
cast to an 8-bit integer takes the floor. -/
def convert (sqrtq : ℚ → ℚ) (value : ℚ) (samples_per_pixel : ℕ) : ℕ :=
  (255 * clamp (sqrtq (value / samples_per_pixel)) 0 1).floor.toNat

/-- The four bytes written for one pixel (`main.cc` lines 464-468): the
three converted channels of the accumulated sample sum, then an opaque
alpha of 255. -/
def write_pixel (sqrtq : ℚ → ℚ) (pixel_color : color)
    (samples_per_pixel : ℕ) : ℕ × ℕ × ℕ × ℕ :=
  (convert sqrtq pixel_color.x samples_per_pixel,
   convert sqrtq pixel_color.y samples_per_pixel,
   convert sqrtq pixel_color.z samples_per_pixel,
   255)

/-- A concrete probe ray used by the witnesses. -/
def demo_ray : ray := ⟨⟨0, 0, 0⟩, ⟨1, 0, 0⟩, 0⟩

/-- A concrete background color used by the witnesses. -/
def demo_bg : color := ⟨7 / 10, 8 / 10, 1⟩

/-- The empty world: a `hittable_list` with no objects; its hit query never
reports a hit. -/
def empty_world : hittable :=
  { hit := fun r t_min t_max => hittable_list_hit [] r t_min t_max,
    box := ⟨⟨0, 0, 0⟩, ⟨0, 0, 0⟩⟩ }

/-- C3: for every ray, background and world, the integrator at `depth ≤ 0`
(in particular `depth = 0`) returns exactly `(0, 0, 0)`; the world is
universally quantified, so the result does not depend on its contents. -/
theorem ray_color_depth_le_zero (r : ray) (background : color)
    (world : hittable) (depth : ℤ) (hd : depth ≤ 0) :
    ray_color r background world depth = ⟨0, 0, 0⟩ := by
  rw [ray_color, if_pos hd]

theorem ray_color_depth_le_zero_witness :
    (0 : ℤ) ≤ 0 ∧ ray_color demo_ray demo_bg empty_world 0 = ⟨0, 0, 0⟩ :=
  ⟨le_refl 0, ray_color_depth_le_zero demo_ray demo_bg empty_world 0 (le_refl 0)⟩

/-- C4: for every ray, world, and `depth > 0`, the integrator queries the
world's hit over exactly `[0.001, +infinity)` (the hypothesis names that
query), and when the query reports no hit the result is exactly the
background color. -/
theorem ray_color_miss (r : ray) (background : color) (world : hittable)
    (depth : ℤ) (hd : 0 < depth)
    (hmiss : world.hit r (erat.fin (1 / 1000)) erat.inf = none) :
    ray_color r background world depth = background := by
  rw [ray_color, if_neg (not_le.mpr hd), hmiss]

theorem ray_color_miss_witness :
    (0 : ℤ) < 5 ∧
    empty_world.hit demo_ray (erat.fin (1 / 1000)) erat.inf = none ∧
    ray_color demo_ray demo_bg empty_world 5 = demo_bg :=
  ⟨by decide, rfl, ray_color_miss demo_ray demo_bg empty_world 5 (by decide) rfl⟩

/-- C5: for every hit at `depth > 0` whose material declines to scatter,
the integrator returns exactly the emitted color alone — no recursion and
no attenuation; a declined scatter is an ordinary value (`none`), not an
error, and the integrator is a total function on it. -/
theorem ray_color_no_scatter (r : ray) (background : color)
    (world : hittable) (depth : ℤ) (hd : 0 < depth) (hrec : hit_record)
    (hhit : world.hit r (erat.fin (1 / 1000)) erat.inf = some hrec)
    (hsc : hrec.mat.scatter r hrec.tohit_geom = none) :
    ray_color r background world depth =
      hrec.mat.emitted hrec.u hrec.v hrec.p := by
  rw [ray_color, if_neg (not_le.mpr hd), hhit]
  simp only [hsc]

/-- A material that declines every scatter and emits `(1, 2, 3)`. -/
def absorb_mat : material :=
  { emitted := fun _ _ _ => ⟨1, 2, 3⟩, scatter := fun _ _ => none }

/-- A concrete hit record carried by `absorb_world`. -/
def absorb_rec : hit_record :=
  { p := ⟨1, 0, 0⟩, normal := ⟨-1, 0, 0⟩, t := 1, u := 0, v := 0,
    front_face := true, mat := absorb_mat }

/-- A world whose hit query always reports `absorb_rec`. -/
def absorb_world : hittable :=
  { hit := fun _ _ _ => some absorb_rec, box := ⟨⟨0, 0, 0⟩, ⟨2, 2, 2⟩⟩ }

theorem ray_color_no_scatter_witness :
    (0 : ℤ) < 3 ∧
    absorb_world.hit demo_ray (erat.fin (1 / 1000)) erat.inf = some absorb_rec ∧
    absorb_rec.mat.scatter demo_ray absorb_rec.tohit_geom = none ∧
    ray_color demo_ray demo_bg absorb_world 3 =
      absorb_rec.mat.emitted absorb_rec.u absorb_rec.v absorb_rec.p :=
  ⟨by decide, rfl, rfl,
   ray_color_no_scatter demo_ray demo_bg absorb_world 3 (by decide)
     absorb_rec rfl rfl⟩

/-- C2: for every ray, background, world and `depth > 0`, when the hit
query over `[0.001, +infinity)` finds a hit whose material scatters, the
integrator returns exactly `emitted + attenuation * radiance(scattered,
background, world, depth - 1)`, and the attenuation product is the
componentwise (per color channel) one. -/
theorem ray_color_scatter_eq (r : ray) (background : color)
    (world : hittable) (depth : ℤ) (hd : 0 < depth) (hrec : hit_record)
    (attenuation : color) (scattered : ray)
    (hhit : world.hit r (erat.fin (1 / 1000)) erat.inf = some hrec)
    (hsc : hrec.mat.scatter r hrec.tohit_geom = some (attenuation, scattered)) :
    ray_color r background world depth =
      hrec.mat.emitted hrec.u hrec.v hrec.p +
        attenuation * ray_color scattered background world (depth - 1) ∧
    hrec.mat.emitted hrec.u hrec.v hrec.p +
        attenuation * ray_color scattered background world (depth - 1) =
      ⟨(hrec.mat.emitted hrec.u hrec.v hrec.p).x +
          attenuation.x * (ray_color scattered background world (depth - 1)).x,
       (hrec.mat.emitted hrec.u hrec.v hrec.p).y +
          attenuation.y * (ray_color scattered background world (depth - 1)).y,
       (hrec.mat.emitted hrec.u hrec.v hrec.p).z +
          attenuation.z * (ray_color scattered background world (depth - 1)).z⟩ := by
  constructor
  · rw [ray_color, if_neg (not_le.mpr hd), hhit]
    simp only [hsc]
  · rfl

/-- A material that always scatters with attenuation `(1/2, 1/3, 1/4)`
toward `demo_ray`, and emits `(5, 6, 7)`. -/
def scatter_mat : material :=
  { emitted := fun _ _ _ => ⟨5, 6, 7⟩,
    scatter := fun _ _ => some (⟨1 / 2, 1 / 3, 1 / 4⟩, demo_ray) }

/-- A concrete hit record carried by `scatter_world`. -/
def scatter_rec : hit_record :=
  { p := ⟨1, 0, 0⟩, normal := ⟨-1, 0, 0⟩, t := 1, u := 0, v := 0,
    front_face := true, mat := scatter_mat }

/-- A world whose hit query always reports `scatter_rec`. -/
def scatter_world : hittable :=
  { hit := fun _ _ _ => some scatter_rec, box := ⟨⟨0, 0, 0⟩, ⟨2, 2, 2⟩⟩ }

theorem ray_color_scatter_eq_witness :
    (0 : ℤ) < 1 ∧
    scatter_world.hit demo_ray (erat.fin (1 / 1000)) erat.inf = some scatter_rec ∧
    scatter_rec.mat.scatter demo_ray scatter_rec.tohit_geom =
      some (⟨1 / 2, 1 / 3, 1 / 4⟩, demo_ray) ∧
    ray_color demo_ray demo_bg scatter_world 1 =
      scatter_rec.mat.emitted scatter_rec.u scatter_rec.v scatter_rec.p +
        (⟨1 / 2, 1 / 3, 1 / 4⟩ : color) *
          ray_color demo_ray demo_bg scatter_world (1 - 1) :=
  ⟨by decide, rfl, rfl,
   (ray_color_scatter_eq demo_ray demo_bg scatter_world 1 (by decide)
     scatter_rec ⟨1 / 2, 1 / 3, 1 / 4⟩ demo_ray rfl rfl).1⟩

/-- C10: at depth exactly 1 the integrator returns the background on a
miss, and on a hit exactly the emitted color — whether or not the material
scatters — because the depth-0 recursive call contributes
`attenuation * (0,0,0) = (0,0,0)`. -/
theorem ray_color_depth_one (r : ray) (background : color) (world : hittable) :
    (world.hit r (erat.fin (1 / 1000)) erat.inf = none →
      ray_color r background world 1 = background) ∧
    (∀ hrec, world.hit r (erat.fin (1 / 1000)) erat.inf = some hrec →
      ray_color r background world 1 =
        hrec.mat.emitted hrec.u hrec.v hrec.p) := by
  constructor
  · intro hmiss
    rw [ray_color, if_neg (by norm_num), hmiss]
  · intro hrec hhit
    rw [ray_color, if_neg (by norm_num), hhit]
    cases hsc : hrec.mat.scatter r hrec.tohit_geom with
    | none => simp only [hsc]
    | some pr =>
      obtain ⟨attenuation, scattered⟩ := pr
      simp only [hsc]
      have h0 : ray_color scattered background world (1 - 1) = ⟨0, 0, 0⟩ := by
        rw [ray_color]
        norm_num
      rw [h0, vec3_mul_zero, vec3_add_zero]

theorem ray_color_depth_one_witness :
    scatter_world.hit demo_ray (erat.fin (1 / 1000)) erat.inf = some scatter_rec ∧
    ray_color demo_ray demo_bg scatter_world 1 =
      scatter_rec.mat.emitted scatter_rec.u scatter_rec.v scatter_rec.p :=
  ⟨rfl, (ray_color_depth_one demo_ray demo_bg scatter_world).2 scatter_rec rfl⟩

/-- Fuel adequacy: the integrator's recursion completes within
`depth.toNat` frames of budget plus one. -/
theorem ray_color_fuel_adequate (background : color) (world : hittable) :
    ∀ (fuel : ℕ) (r : ray) (depth : ℤ), depth.toNat < fuel →
      ray_color_fuel fuel r background world depth =
        some (ray_color r background world depth) := by
  intro fuel
  induction fuel with
  | zero => intro r depth h; omega
  | succ f ih =>
    intro r depth hlt
    rw [ray_color]
    by_cases hd : depth ≤ 0
    · simp only [ray_color_fuel, if_pos hd]
    · simp only [ray_color_fuel, if_neg hd]
      cases hhit : world.hit r (erat.fin (1 / 1000)) erat.inf with
      | none => rfl
      | some hrec =>
        show (match hrec.mat.scatter r hrec.tohit_geom with
              | none => some (hrec.mat.emitted hrec.u hrec.v hrec.p)
              | some (attenuation, scattered) =>
                Option.map
                  (fun c => hrec.mat.emitted hrec.u hrec.v hrec.p + attenuation * c)
                  (ray_color_fuel f scattered background world (depth - 1))) =
          some (match hrec.mat.scatter r hrec.tohit_geom with
              | none => hrec.mat.emitted hrec.u hrec.v hrec.p
              | some (attenuation, scattered) =>
                hrec.mat.emitted hrec.u hrec.v hrec.p +
                  attenuation * ray_color scattered background world (depth - 1))
        cases hsc : hrec.mat.scatter r hrec.tohit_geom with
        | none => rfl
        | some pr =>
          obtain ⟨attenuation, scattered⟩ := pr
          show Option.map
              (fun c => hrec.mat.emitted hrec.u hrec.v hrec.p + attenuation * c)
              (ray_color_fuel f scattered background world (depth - 1)) =
            some (hrec.mat.emitted hrec.u hrec.v hrec.p +
              attenuation * ray_color scattered background world (depth - 1))
          rw [ih scattered (depth - 1) (by omega)]
          rfl

/-- C7: the recursive integrator terminates for every input: each
recursive call decreases `depth` by exactly 1 and `depth ≤ 0` is a base
case, so the evaluation always completes within `depth.toNat + 1` stack
frames (the fuel-indexed evaluator never reports exhaustion) and produces
the value of the total function `ray_color` — black at exhausted depth,
never an error. -/
theorem ray_color_terminates (r : ray) (background : color)
    (world : hittable) (depth : ℤ) :
    ray_color_fuel (depth.toNat + 1) r background world depth =
      some (ray_color r background world depth) :=
  ray_color_fuel_adequate background world (depth.toNat + 1) r depth
    (Nat.lt_succ_self _)

/-- C8: the integrator is deterministic given its random source: with the
ambient RNG made an explicit stream input, two evaluations with the same
ray, background, world, depth and identical random streams produce
identical outputs.  (The embedding of `ray_color` is a pure function, so
the output depends on nothing besides these inputs.) -/
theorem ray_color_rand_deterministic (r : ray) (background : color)
    (world : rhittable) (depth : ℤ) (g1 g2 : rng_stream) (hg : g1 = g2) :
    ray_color_rand r background world depth g1 =
      ray_color_rand r background world depth g2 := by
  rw [hg]

/-- An entropy-free world for the determinism witness: misses everything
and leaves the stream untouched. -/
def demo_rworld : rhittable := { hit := fun _ _ _ g => (none, g) }

/-- A concrete random stream (all draws `1/2`). -/
def demo_stream : rng_stream := fun _ => 1 / 2

theorem ray_color_rand_deterministic_witness :
    demo_stream = demo_stream ∧
    ray_color_rand demo_ray demo_bg demo_rworld 5 demo_stream =
      ray_color_rand demo_ray demo_bg demo_rworld 5 demo_stream :=
  ⟨rfl, ray_color_rand_deterministic demo_ray demo_bg demo_rworld 5
    demo_stream demo_stream rfl⟩

/-- The converted channel value fits in 8 bits. -/
theorem convert_le_255 (sqrtq : ℚ → ℚ) (value : ℚ) (samples_per_pixel : ℕ) :
    convert sqrtq value samples_per_pixel ≤ 255 := by
  unfold convert
  have hcl : clamp (sqrtq (value / samples_per_pixel)) 0 1 ≤ 1 := by
    unfold clamp
    split_ifs with h1 h2
    · norm_num
    · norm_num
    · linarith [not_lt.mp h2]
  have hle : (255 : ℚ) * clamp (sqrtq (value / samples_per_pixel)) 0 1 ≤ 255 := by
    nlinarith
  have hfl : ((255 : ℚ) * clamp (sqrtq (value / samples_per_pixel)) 0 1).floor ≤ 255 := by
    calc ((255 : ℚ) * clamp (sqrtq (value / samples_per_pixel)) 0 1).floor
        ≤ ((255 : ℚ)).floor := Int.floor_le_floor hle
      _ = 255 := rfl
  omega

/-- C9: the per-pixel output is three 8-bit channel values obtained from
the accumulated sample sum by `value ↦ clamp(sqrt(value / sample_count),
0, 1) × 255` (the gamma-2 correction map `convert`, with `sqrtq` the
external square-root primitive), together with an opaque alpha of exactly
255 as the fourth byte; all four bytes fit in 8 bits. -/
theorem write_pixel_bytes (sqrtq : ℚ → ℚ) (pixel_color : color)
    (samples_per_pixel : ℕ) :
    write_pixel sqrtq pixel_color samples_per_pixel =
      (convert sqrtq pixel_color.x samples_per_pixel,
       convert sqrtq pixel_color.y samples_per_pixel,
       convert sqrtq pixel_color.z samples_per_pixel, 255) ∧
    (write_pixel sqrtq pixel_color samples_per_pixel).1 ≤ 255 ∧
    (write_pixel sqrtq pixel_color samples_per_pixel).2.1 ≤ 255 ∧
    (write_pixel sqrtq pixel_color samples_per_pixel).2.2.1 ≤ 255 ∧
    (write_pixel sqrtq pixel_color samples_per_pixel).2.2.2 = 255 :=
  ⟨rfl, convert_le_255 sqrtq pixel_color.x samples_per_pixel,
   convert_le_255 sqrtq pixel_color.y samples_per_pixel,
   convert_le_255 sqrtq pixel_color.z samples_per_pixel, rfl⟩

theorem vec3_neg_def (a : vec3) : -a = (⟨-a.x, -a.y, -a.z⟩ : vec3) := rfl

theorem dot_neg_left (a b : vec3) : dot (-a) b = -(dot a b) := by
  rw [vec3_neg_def]
  unfold dot
  dsimp only
  ring

theorem dot_comm (a b : vec3) : dot a b = dot b a := by
  unfold dot
  ring

/-- The front-face bookkeeping always stores a normal opposing the ray. -/
theorem dot_set_face_normal (r : ray) (outward_normal : vec3) :
    dot (set_face_normal r outward_normal).2 r.dir ≤ 0 := by
  unfold set_face_normal
  by_cases h : dot r.dir outward_normal < 0
  · rw [if_pos h]
    show dot outward_normal r.dir ≤ 0
    rw [dot_comm]
    exact le_of_lt h
  · rw [if_neg h]
    show dot (-outward_normal) r.dir ≤ 0
    rw [dot_neg_left, dot_comm]
    push_neg at h
    linarith

/-- C6 (amended): for every geometry that assigns its stored normal through
the front-face bookkeeping (`set_face_normal`) — all variants except the
constant medium, which stores an arbitrary normal — a successful
intersection satisfies `dot(normal, ray.direction) ≤ 0`, and when the ray
direction and the outward geometric normal have positive dot product the
stored normal is the flipped outward normal and `front_face = false`.
Stated for the bookkeeping itself and for the rectangle geometry, which
uses it. -/
theorem hit_normal_orientation :
    (∀ (r : ray) (outward_normal : vec3),
      dot (set_face_normal r outward_normal).2 r.dir ≤ 0 ∧
      (0 < dot r.dir outward_normal →
        (set_face_normal r outward_normal).2 = -outward_normal ∧
        (set_face_normal r outward_normal).1 = false)) ∧
    (∀ (rect : xy_rect) (r : ray) (t_min t_max : erat) (hrec : hit_record),
      xy_rect_hit rect r t_min t_max = some hrec →
        dot hrec.normal r.dir ≤ 0) := by
  constructor
  · intro r outward_normal
    refine ⟨dot_set_face_normal r outward_normal, ?_⟩
    intro hpos
    unfold set_face_normal
    rw [if_neg (not_lt.mpr (le_of_lt hpos))]
    exact ⟨rfl, rfl⟩
  · intro rect r t_min t_max hrec hhit
    simp only [xy_rect_hit] at hhit
    split_ifs at hhit
    all_goals
      injection hhit with hh
      rw [← hh]
      exact dot_set_face_normal r ⟨0, 0, 1⟩

/-- A unit rectangle in the plane `z = 0`. -/
def demo_rect : xy_rect :=
  { x0 := 0, x1 := 1, y0 := 0, y1 := 1, k := 0, mat := absorb_mat }

/-- A ray crossing `demo_rect` from below, along the rectangle's outward
normal (a back-face hit: the stored normal must be flipped). -/
def rect_ray : ray := ⟨⟨1 / 2, 1 / 2, -1⟩, ⟨0, 0, 1⟩, 0⟩

/-- The hit record `demo_rect` reports for `rect_ray`. -/
def rect_rec : hit_record :=
  { p := ⟨1 / 2, 1 / 2, 0⟩, normal := ⟨0, 0, -1⟩, t := 1, u := 1 / 2,
    v := 1 / 2, front_face := false, mat := absorb_mat }

theorem hit_normal_orientation_witness :
    xy_rect_hit demo_rect rect_ray (erat.fin (1 / 1000)) erat.inf =
      some rect_rec ∧
    dot rect_rec.normal rect_ray.dir ≤ 0 ∧
    0 < dot rect_ray.dir ⟨0, 0, 1⟩ ∧
    (set_face_normal rect_ray ⟨0, 0, 1⟩).2 = -(⟨0, 0, 1⟩ : vec3) ∧
    (set_face_normal rect_ray ⟨0, 0, 1⟩).1 = false := by
  have hhit : xy_rect_hit demo_rect rect_ray (erat.fin (1 / 1000)) erat.inf =
      some rect_rec := by with_unfolding_all rfl
  refine ⟨hhit,
    hit_normal_orientation.2 demo_rect rect_ray (erat.fin (1 / 1000))
      erat.inf rect_rec hhit, by norm_num [dot, rect_ray],
    (hit_normal_orientation.1 rect_ray ⟨0, 0, 1⟩).2 (by norm_num [dot, rect_ray])⟩

/-- The constant medium's phase-function material (never scatters here,
emits black); only its identity matters for the counterexample. -/
def cm_phase : material :=
  { emitted := fun _ _ _ => ⟨0, 0, 0⟩, scatter := fun _ _ => none }

/-- A boundary for the constant medium: entered at `t = 0`, left at
`t = 10` (the probe with `t_min = -infinity` reports the entry, any later
probe reports the exit). -/
def cm_boundary : hittable :=
  { hit := fun _ t_min _ =>
      if t_min = erat.ninf then
        some { p := ⟨0, 0, 0⟩, normal := ⟨-1, 0, 0⟩, t := 0, u := 0, v := 0,
               front_face := true, mat := cm_phase }
      else
        some { p := ⟨10, 0, 0⟩, normal := ⟨1, 0, 0⟩, t := 10, u := 0, v := 0,
               front_face := false, mat := cm_phase },
    box := ⟨⟨0, 0, 0⟩, ⟨10, 1, 1⟩⟩ }

/-- A ray travelling along positive x through the medium. -/
def cm_ray : ray := ⟨⟨0, 0, 0⟩, ⟨1, 0, 0⟩, 0⟩

/-- The record the constant medium reports: its normal is the arbitrary
`(1, 0, 0)`, which points along — not against — the ray. -/
def cm_rec : hit_record :=
  { p := ray_at cm_ray (1001 / 1000), normal := ⟨1, 0, 0⟩, t := 1001 / 1000,
    u := 0, v := 0, front_face := true, mat := cm_phase }

/-- C6 counterexample: a successful intersection of the constant-medium
geometry whose stored normal has positive dot product with the ray
direction — the claim's invariant `dot(normal, direction) ≤ 0` fails for
this geometry, since it stores an arbitrary normal without the front-face
bookkeeping. -/
theorem normal_orientation_counterexample :
    (constant_medium cm_boundary 1 1 1 cm_phase).hit cm_ray
      (erat.fin (1 / 1000)) erat.inf = some cm_rec ∧
    0 < dot cm_rec.normal cm_ray.dir :=
  ⟨by with_unfolding_all rfl, by norm_num [dot, cm_rec, cm_ray]⟩

/-- C1: the refinement theorem.  For any axis stream (the fixed random
seed's axis draws), any collection of well-formed geometries, and the BVH
root built over them, every ray over every parameter interval gets the
same nearest-hit `t` from the BVH traversal as from the naive linear scan
over the same geometries.  Over exact rationals the agreement is exact, so
the spec's floating tolerance is met with margin zero. -/
theorem bvh_linear_scan_equiv (axf : ℕ → Fin 3) (n : ℕ)
    (objs : List hittable) (t : bvh_tree)
    (hb : bvh_build axf n objs = some t)
    (hwf : ∀ o ∈ objs, wf_hittable o) (r : ray) (t_min t_max : erat) :
    Option.map hit_t (bvh_hit t r t_min t_max) =
      Option.map hit_t (hittable_list_hit objs r t_min t_max) := by
  have hwl : ∀ o ∈ leaves t, wf_hittable o := fun o ho =>
    hwf o (bvh_build_leaves_mem axf n objs t hb o ho)
  rw [bvh_hit_min t hwl (bvh_build_inv axf n objs t hb) r t_min t_max,
    bvh_build_min axf r t_min t_max n objs t hb,
    hittable_list_hit_min objs hwf r t_min t_max]

/-- A degenerate geometry that never reports a hit; trivially well-formed. -/
def never_hit : hittable :=
  { hit := fun _ _ _ => none, box := ⟨⟨0, 0, 0⟩, ⟨1, 1, 1⟩⟩ }

theorem never_hit_wf : wf_hittable never_hit :=
  ⟨⟨by norm_num [never_hit], by norm_num [never_hit], by norm_num [never_hit]⟩,
   fun r a b hrec h => Option.noConfusion h,
   fun r a b c hc => rfl,
   fun r a b h => rfl⟩

/-- The BVH the build produces over the single geometry `never_hit`: the
leaf duplicated as both children under the union box. -/
def witness_tree : bvh_tree :=
  .node (surrounding_box never_hit.box never_hit.box)
    (.leaf never_hit) (.leaf never_hit)

theorem bvh_linear_scan_equiv_witness :
    bvh_build (fun _ => (0 : Fin 3)) 0 [never_hit] = some witness_tree ∧
    (∀ o ∈ [never_hit], wf_hittable o) ∧
    Option.map hit_t
        (bvh_hit witness_tree demo_ray (erat.fin (1 / 1000)) erat.inf) =
      Option.map hit_t
        (hittable_list_hit [never_hit] demo_ray (erat.fin (1 / 1000))
          erat.inf) := by
  have hb : bvh_build (fun _ => (0 : Fin 3)) 0 [never_hit] =
      some witness_tree := by
    simp [bvh_build, witness_tree]
  have hwf : ∀ o ∈ [never_hit], wf_hittable o := by
    intro o ho
    rw [List.mem_singleton] at ho
    rw [ho]
    exact never_hit_wf
  exact ⟨hb, hwf,
    bvh_linear_scan_equiv (fun _ => (0 : Fin 3)) 0 [never_hit] witness_tree
      hb hwf demo_ray (erat.fin (1 / 1000)) erat.inf⟩
